import Mathlib

/-!
Verification development for an embedded, file-backed, checkpointed
key/value store (the DB component of the fleece repository) and for the
JSONConverter ingestion path.

The DB implementation itself is not present in the source tree (only its
tests in Tests/DBTests.cc are), so the data model, the on-disk log format
and the replay/recovery algorithm are modelled from the specification
(spec.md sections 3, 4 and 6).  The JSONConverter definitions are
translated from JSONConverter.cc; its jsonsl lexer collaborator is
modelled from the specification notes on the streaming parser.

Bytes are modelled as natural numbers; a file is a list of bytes.
-/

set_option autoImplicit false

abbrev Bytes := List Nat

/-- A staged mutation: key together with `some value` for a Put or `none`
for a Remove.  The Transaction Buffer and a serialized commit both hold
values of this type. -/
abbrev Mut := Bytes × Option Bytes

/-- The committed key/value index: an association list from keys to
encoded values. -/
abbrev KIndex := List (Bytes × Bytes)

/-- First entry of an association list with the given key. -/
def assocFind {α : Type} (k : Bytes) : List (Bytes × α) → Option α
  | [] => none
  | (k1, v) :: rest => if k1 = k then some v else assocFind k rest

/-- Insert-or-replace for an association list: replaces the first entry
holding the key, otherwise appends. -/
def upsert {α : Type} (k : Bytes) (v : α) : List (Bytes × α) → List (Bytes × α)
  | [] => [(k, v)]
  | (k1, v1) :: rest => if k1 = k then (k, v) :: rest else (k1, v1) :: upsert k v rest

/-- Remove every entry holding the given key. -/
def eraseKey {α : Type} (k : Bytes) : List (Bytes × α) → List (Bytes × α)
  | [] => []
  | (k1, v1) :: rest => if k1 = k then eraseKey k rest else (k1, v1) :: eraseKey k rest

/-- Modelled from the spec: applying one mutation to the Index (a Put is
an upsert, a Remove erases the key). -/
def applyMut (idx : KIndex) (m : Mut) : KIndex :=
  match m.2 with
  | some v => upsert m.1 v idx
  | none => eraseKey m.1 idx

/-- Modelled from the spec: applying a decoded commit (or the Transaction
Buffer) to the Index, in order. -/
def applyMuts (idx : KIndex) (ms : List Mut) : KIndex :=
  ms.foldl applyMut idx

/-- Modelled from the spec: the fixed file header (format magic and
version), validated on open. -/
def kHeader : List Nat := [70, 76, 1]

/-- Modelled from the spec: the format magic terminating every commit
trailer. -/
def kTrailerMagic : Nat := 219

/-- Modelled from the spec: the checksum a trailer records over the
serialized bytes of its commit. -/
def checksum (l : List Nat) : Nat :=
  l.foldl (fun a b => a + b + 1) 7

/-- Modelled from the spec: serialization of one mutation
(tag, key length, key bytes, and for a Put the value length and bytes). -/
def encMut : Mut → List Nat
  | (k, some v) => 1 :: k.length :: (k ++ (v.length :: v))
  | (k, none) => 0 :: k.length :: k

/-- Serialization of a mutation list. -/
def encMuts : List Mut → List Nat
  | [] => []
  | m :: ms => encMut m ++ encMuts ms

/-- Modelled from the spec: the serialized payload of a commit, a count
followed by the serialized mutations. -/
def encPayload (ms : List Mut) : List Nat :=
  ms.length :: encMuts ms

/-- Decode one serialized mutation, returning it and the remaining bytes. -/
def decodeMut (bs : List Nat) : Option (Mut × List Nat) :=
  match bs with
  | tag :: klen :: rest =>
    if (rest.take klen).length = klen then
      if tag = 0 then some ((rest.take klen, none), rest.drop klen)
      else if tag = 1 then
        match rest.drop klen with
        | vlen :: rest2 =>
          if (rest2.take vlen).length = vlen then
            some ((rest.take klen, some (rest2.take vlen)), rest2.drop vlen)
          else none
        | [] => none
      else none
    else none
  | _ => none

/-- Decode a given count of serialized mutations. -/
def decodeMuts : Nat → List Nat → Option (List Mut × List Nat)
  | 0, bs => some ([], bs)
  | n + 1, bs =>
    match decodeMut bs with
    | some (m, rest) =>
      match decodeMuts n rest with
      | some (ms, rest2) => some (m :: ms, rest2)
      | none => none
    | none => none

/-- Decode a commit payload; the count and the mutations must consume the
payload exactly, anything else is a decode failure. -/
def decodePayload (payload : List Nat) : Option (List Mut) :=
  match payload with
  | count :: rest =>
    match decodeMuts count rest with
    | some (ms, []) => some ms
    | _ => none
  | [] => none

/-- Outcome of reading one commit frame during replay: a decoded commit
with its payload length, a fault boundary (incomplete or checksum-invalid
frame), or a decode failure inside a checksum-valid frame. -/
inductive ParseResult where
  | commit (ms : List Mut) (plen : Nat)
  | fault
  | badDecode
deriving DecidableEq

/-- Modelled from the spec: read the next commit frame at the given byte
offset.  A frame is a payload length byte, the payload, and a four byte
trailer holding the checksum, this commit id (the byte offset of the
frame end), the previous commit id, and the trailer magic.  Any framing,
checksum, id-chain or magic mismatch is a fault; a checksum-valid frame
whose payload does not decode is a fatal decode failure. -/
def parseCommit (rem : List Nat) (offset cp : Nat) : ParseResult :=
  match rem with
  | [] => .fault
  | plen :: rest =>
    if (rest.take plen).length = plen then
      match rest.drop plen with
      | ck :: tid :: pid :: mg :: _ =>
        if mg = kTrailerMagic ∧ ck = checksum (rest.take plen) ∧
            tid = offset + plen + 5 ∧ pid = cp then
          match decodePayload (rest.take plen) with
          | some ms => .commit ms plen
          | none => .badDecode
        else .fault
      | _ => .fault
    else .fault

/-- Modelled from the spec: the bytes of one commit written at the given
offset while the given checkpoint id is current: payload length, payload,
checksum, this commit id, previous commit id, trailer magic. -/
def mkCommit (offset cp : Nat) (ms : List Mut) : List Nat :=
  (encPayload ms).length ::
    (encPayload ms ++
      (checksum (encPayload ms) :: (offset + (encPayload ms).length + 5) :: cp :: [kTrailerMagic]))

/-- The bytes of a sequence of commits appended starting at the given
offset and checkpoint id; each commit advances the checkpoint id to its
own end offset. -/
def mkCommits : Nat → Nat → List (List Mut) → List Nat
  | _, _, [] => []
  | offset, cp, ms :: rest =>
    mkCommit offset cp ms ++
      mkCommits (offset + (encPayload ms).length + 5) (offset + (encPayload ms).length + 5) rest

/-- A whole store file: header followed by a chain of commits. -/
def mkFile (css : List (List Mut)) : List Nat :=
  kHeader ++ mkCommits 3 0 css

/-- Result of sequential replay: the rebuilt index, the current and
previous checkpoint ids, the byte offset of the last consumed commit
boundary and the damage flag; or a fatal failure. -/
inductive ReplayOutcome where
  | ok (idx : KIndex) (cp pcp offset : Nat) (damaged : Bool)
  | fatal
deriving DecidableEq

/-- Fuel-indexed worker for sequential replay; the fuel only bounds the
number of commits and is set to the remaining byte count, which always
suffices because every commit frame consumes at least five bytes. -/
def replayGo : Nat → List Nat → Nat → Nat → Nat → KIndex → Nat → ReplayOutcome
  | _, [], offset, cp, pcp, idx, _ => .ok idx cp pcp offset false
  | 0, _ :: _, _, _, _, _, _ => .fatal
  | fuel + 1, b :: rest, offset, cp, pcp, idx, n =>
    match parseCommit (b :: rest) offset cp with
    | .commit ms plen =>
      replayGo fuel (rest.drop (plen + 4)) (offset + plen + 5) (offset + plen + 5) cp
        (applyMuts idx ms) (n + 1)
    | .fault => if n = 0 then .fatal else .ok idx cp pcp offset true
    | .badDecode => .fatal

/-- Modelled from the spec: sequential validate-and-apply replay from the
given offset to EOF or the first fault.  A clean EOF is undamaged; a
fault after at least one applied commit yields a damaged but usable
state; a fault with zero applied commits, or a decode failure inside a
checksum-valid commit, is fatal. -/
def replayLoop (rem : List Nat) (offset cp pcp : Nat) (idx : KIndex) (n : Nat) : ReplayOutcome :=
  replayGo rem.length rem offset cp pcp idx n

/-- Fuel-indexed worker for bounded (snapshot) replay. -/
def replayToGo : Nat → List Nat → Nat → Nat → Nat → KIndex → Nat → Option (KIndex × Nat × Nat)
  | fuel, rem, offset, cp, pcp, idx, target =>
    if cp = target then some (idx, cp, pcp)
    else
      match fuel, rem with
      | _, [] => none
      | 0, _ :: _ => none
      | f + 1, b :: rest =>
        match parseCommit (b :: rest) offset cp with
        | .commit ms plen =>
          replayToGo f (rest.drop (plen + 4)) (offset + plen + 5) (offset + plen + 5) cp
            (applyMuts idx ms) target
        | _ => none

/-- Modelled from the spec: replay bounded to a requested checkpoint id,
stopping exactly when that id is reached; reaching EOF or a fault first
means the id does not belong to the validated chain and the snapshot open
fails fatally. -/
def replayTo (rem : List Nat) (offset cp pcp : Nat) (idx : KIndex) (target : Nat) :
    Option (KIndex × Nat × Nat) :=
  replayToGo rem.length rem offset cp pcp idx target

/-- Modelled from the spec: an open Store handle: its file bytes (already
truncated to the validated chain), the committed Index, the Transaction
Buffer of staged mutations, the current and previous checkpoint ids, and
the damage flag. -/
structure Store where
  file : List Nat
  index : KIndex
  buffer : List Mut
  checkpoint : Nat
  prevCheckpoint : Nat
  damaged : Bool
deriving DecidableEq

/-- Modelled from the spec: opening a store file.  The header is
validated first (a mismatch is fatal), then replay builds the Index and
decides the checkpoint ids and the damage flag. -/
def openFile (file : List Nat) : Except Unit Store :=
  if file.take 3 = kHeader then
    match replayLoop (file.drop 3) 3 0 0 [] 0 with
    | .ok idx cp pcp offset dmg =>
      .ok { file := file.take offset, index := idx, buffer := [],
            checkpoint := cp, prevCheckpoint := pcp, damaged := dmg }
    | .fatal => .error ()
  else .error ()

/-- Modelled from the spec: a freshly created store (create-and-write
mode): header only, empty Index and Buffer, checkpoint id zero. -/
def newStore : Store :=
  { file := kHeader, index := [], buffer := [], checkpoint := 0,
    prevCheckpoint := 0, damaged := false }

/-- Modelled from the spec: `get` reads the Buffer first (a staged Put
wins, a staged Remove hides the key) and falls back to the committed
Index. -/
def Store.get (s : Store) (k : Bytes) : Option Bytes :=
  match assocFind k s.buffer with
  | some (some v) => some v
  | some none => none
  | none => assocFind k s.index

/-- Modelled from the spec: `put` stages an upsert in the Transaction
Buffer. -/
def put (s : Store) (k v : Bytes) : Store :=
  { s with buffer := upsert k (some v) s.buffer }

/-- Modelled from the spec: `remove` stages a Remove in the Transaction
Buffer. -/
def removeKey (s : Store) (k : Bytes) : Store :=
  { s with buffer := upsert k none s.buffer }

/-- Modelled from the spec: the content an overlay returned by
`getMutable` is seeded with, namely the current value of the key (overlay
patching itself is out of scope of the claims). -/
def getMutable (s : Store) (k : Bytes) : Option Bytes :=
  Store.get s k

/-- Modelled from the spec: `commitChanges`.  An empty Buffer is a no-op
returning the unchanged checkpoint id; otherwise the Buffer is serialized
as one commit appended to the file, the Index is updated, the Buffer is
cleared, the checkpoint id advances to the new trailer id and the
previous id is recorded. -/
def commitChanges (s : Store) : Store × Nat :=
  if s.buffer = [] then (s, s.checkpoint)
  else
    ({ file := s.file ++ mkCommit s.file.length s.checkpoint s.buffer,
       index := applyMuts s.index s.buffer,
       buffer := [],
       checkpoint := s.file.length + (encPayload s.buffer).length + 5,
       prevCheckpoint := s.checkpoint,
       damaged := s.damaged },
     s.file.length + (encPayload s.buffer).length + 5)

/-- The currently live key/value pairs of a store (Index merged with the
Buffer), as a list of Put mutations. -/
def liveMuts (s : Store) : List Mut :=
  (applyMuts s.index s.buffer).map (fun e => (e.1, some e.2))

/-- Modelled from the spec: `writeTo` produces a fresh file holding the
header and a single commit with every currently live key/value pair, its
trailer carrying previous checkpoint id zero; no history is carried
over and the source store is untouched. -/
def writeTo (s : Store) : List Nat :=
  mkFile [liveMuts s]

/-- Modelled from the spec: opening a read-only snapshot of an existing
store at a historical checkpoint id, by re-running replay bounded to that
id. -/
def openAt (s : Store) (target : Nat) : Except Unit Store :=
  if s.file.take 3 = kHeader then
    match replayTo (s.file.drop 3) 3 0 0 [] target with
    | some (idx, cp, pcp) =>
      .ok { file := s.file, index := idx, buffer := [],
            checkpoint := cp, prevCheckpoint := pcp, damaged := false }
    | none => .error ()
  else .error ()

/-- Apply a sequence of put/remove operations to a fresh store. -/
def runOps (ops : List Mut) : Store :=
  ops.foldl (fun s m =>
    match m.2 with
    | some v => put s m.1 v
    | none => removeKey s m.1) newStore

/-- The last operation staged for a key in an operation sequence. -/
def lastOp (ops : List Mut) (k : Bytes) : Option (Option Bytes) :=
  assocFind k ops.reverse

/-- Replay state used to describe the effect of a commit chain: current
offset, checkpoint id, previous checkpoint id and index. -/
structure RState where
  offset : Nat
  cp : Nat
  pcp : Nat
  idx : KIndex
deriving DecidableEq

/-- The effect of one valid commit on the replay state. -/
def rstep (st : RState) (ms : List Mut) : RState :=
  { offset := st.offset + (encPayload ms).length + 5,
    cp := st.offset + (encPayload ms).length + 5,
    pcp := st.cp,
    idx := applyMuts st.idx ms }

/-- The replay state after a chain of commits. -/
def runCommits (st : RState) (css : List (List Mut)) : RState :=
  css.foldl rstep st

/-- The replay state at the start of a file, just after the header. -/
def initSt : RState :=
  { offset := 3, cp := 0, pcp := 0, idx := [] }

/-!
JSONConverter (translated from JSONConverter.cc).  The jsonsl streaming
lexer it drives is an external collaborator whose source is not in the
tree; it is modelled from the specification notes on the ingestion path
(an event emitter with a small state stack of open containers).  Input
bytes are natural number character codes; code 34 is the double quote,
91 and 93 the square brackets, 123 and 125 the curly brackets.
-/

/-- Success code of the jsonsl lexer (JSONSL_ERROR_SUCCESS). -/
def kJsonslSuccess : Nat := 0

/-- Modelled from the spec: lexer error code for a mismatched or stray
closing bracket. -/
def kErrBracket : Nat := 3

/-- Converter-private error code for valid-but-truncated input
(kErrTruncatedJSON in JSONConverter.hh, which is not in the tree). -/
def kErrTruncatedJSON : Nat := 1000

/-- Converter-private error code recorded when a callback threw
(kErrExceptionThrown in JSONConverter.hh, which is not in the tree). -/
def kErrExceptionThrown : Nat := 1001

/-- The JSONError member of the fleece ErrorCode enumeration. -/
def kJSONError : Nat := 13

/-- Modelled from the spec: state of the jsonsl streaming lexer: the
stack of open containers (true marks an object), the in-string flag, the
first error with its position, and the current position. -/
structure FeedState where
  stack : List Bool
  inStr : Bool
  err : Option (Nat × Nat)
  pos : Nat
deriving DecidableEq

/-- The lexer state before any input. -/
def initFeed : FeedState :=
  { stack := [], inStr := false, err := none, pos := 0 }

/-- Modelled from the spec: feeding one character to the lexer.  Strings
swallow everything up to the closing quote; container openers push onto
the stack; closers pop a matching opener or report an error; all other
characters only advance the position. -/
def feedChar (st : FeedState) (c : Nat) : FeedState :=
  if st.err.isSome then st
  else if st.inStr then
    if c = 34 then { st with inStr := false, pos := st.pos + 1 }
    else { st with pos := st.pos + 1 }
  else if c = 34 then { st with inStr := true, pos := st.pos + 1 }
  else if c = 91 then { st with stack := false :: st.stack, pos := st.pos + 1 }
  else if c = 123 then { st with stack := true :: st.stack, pos := st.pos + 1 }
  else if c = 93 then
    match st.stack with
    | false :: rest => { st with stack := rest, pos := st.pos + 1 }
    | _ => { st with err := some (kErrBracket, st.pos) }
  else if c = 125 then
    match st.stack with
    | true :: rest => { st with stack := rest, pos := st.pos + 1 }
    | _ => { st with err := some (kErrBracket, st.pos) }
  else { st with pos := st.pos + 1 }

/-- Modelled from the spec: jsonsl_feed, running the lexer over the whole
input.  The nesting level of the lexer is the length of the stack. -/
def jsonslFeed (input : List Nat) : FeedState :=
  input.foldl feedChar initFeed

/-- Error state of a JSONConverter after encodeJSON: the jsonsl or
converter-private error code, the fleece error code, the recorded error
position, and the message recorded by a caught exception. -/
structure Converter where
  jsonError : Nat
  errorCode : Nat
  errorPos : Nat
  errorMsg : String
deriving DecidableEq

/-- encodeJSON from JSONConverter.cc: reset the error state, feed the
whole input, and if the lexer is still inside a container with no error
recorded then record the valid-but-truncated error at the input length.
Returns the converter state and the boolean result (true only when the
error code is still the success code). -/
def encodeJSON (input : List Nat) : Converter × Bool :=
  let fed := jsonslFeed input
  let c1 : Converter :=
    match fed.err with
    | some (e, p) =>
      { jsonError := e, errorCode := kJSONError, errorPos := p, errorMsg := "" }
    | none =>
      { jsonError := kJsonslSuccess, errorCode := 0, errorPos := 0, errorMsg := "" }
  let c2 :=
    if 0 < fed.stack.length ∧ c1.jsonError = kJsonslSuccess then
      { c1 with jsonError := kErrTruncatedJSON, errorCode := kJSONError,
                errorPos := input.length }
    else c1
  (c2, decide (c2.jsonError = kJsonslSuccess))

/-- Modelled from the spec: jsonsl_strerror, the text of a lexer error
code. -/
def jsonslStrerror (_ : Nat) : String :=
  "GENERIC"

/-- errorMessage from JSONConverter.cc: a recorded exception message
wins, then the two converter-private codes, then the lexer error text. -/
def errorMessage (c : Converter) : String :=
  if c.errorMsg ≠ "" then c.errorMsg
  else if c.jsonError = kErrExceptionThrown then "Unexpected C++ exception"
  else if c.jsonError = kErrTruncatedJSON then "Truncated JSON"
  else String.append "JSON parse error: " (jsonslStrerror c.jsonError)

/-! Association list lemmas. -/

theorem assocFind_upsert_self {α : Type} (k : Bytes) (v : α) (l : List (Bytes × α)) :
    assocFind k (upsert k v l) = some v := by
  induction l with
  | nil => simp [upsert, assocFind]
  | cons e rest ih =>
    obtain ⟨k1, v1⟩ := e
    by_cases h : k1 = k
    · simp [upsert, h, assocFind]
    · simp [upsert, h, assocFind, ih]

theorem assocFind_upsert_ne {α : Type} (k k1 : Bytes) (v : α) (l : List (Bytes × α))
    (h : k1 ≠ k) : assocFind k (upsert k1 v l) = assocFind k l := by
  have h' : ¬(k = k1) := fun e => h e.symm
  induction l with
  | nil => simp [upsert, assocFind, h]
  | cons e rest ih =>
    obtain ⟨k2, v2⟩ := e
    by_cases h2 : k2 = k1
    · subst h2
      simp [upsert, assocFind, h]
    · by_cases h3 : k2 = k
      · simp [upsert, h2, assocFind, h3, h']
      · simp [upsert, h2, assocFind, h3, ih]

theorem assocFind_eraseKey_self {α : Type} (k : Bytes) (l : List (Bytes × α)) :
    assocFind k (eraseKey k l) = none := by
  induction l with
  | nil => simp [eraseKey, assocFind]
  | cons e rest ih =>
    obtain ⟨k1, v1⟩ := e
    by_cases h : k1 = k
    · simp [eraseKey, h, ih]
    · simp [eraseKey, h, assocFind, ih]

theorem assocFind_eraseKey_ne {α : Type} (k k1 : Bytes) (l : List (Bytes × α))
    (h : k1 ≠ k) : assocFind k (eraseKey k1 l) = assocFind k l := by
  have h' : ¬(k = k1) := fun e => h e.symm
  induction l with
  | nil => simp [eraseKey, assocFind]
  | cons e rest ih =>
    obtain ⟨k2, v2⟩ := e
    by_cases h2 : k2 = k1
    · subst h2
      simp [eraseKey, assocFind, h, ih]
    · by_cases h3 : k2 = k
      · simp [eraseKey, h2, assocFind, h3, h']
      · simp [eraseKey, h2, assocFind, h3, ih]

theorem assocFind_mem {α : Type} (k : Bytes) (l : List (Bytes × α)) (v : α)
    (h : assocFind k l = some v) : (k, v) ∈ l := by
  induction l with
  | nil => simp [assocFind] at h
  | cons e rest ih =>
    obtain ⟨k1, v1⟩ := e
    by_cases h1 : k1 = k
    · subst h1
      simp [assocFind] at h
      simp [h]
    · simp [assocFind, h1] at h
      simp [ih h]

theorem mem_upsert {α : Type} (a k : Bytes) (x v : α) (l : List (Bytes × α))
    (h : (a, x) ∈ upsert k v l) : (a, x) ∈ l ∨ a = k := by
  induction l with
  | nil =>
    simp [upsert] at h
    right
    exact h.1
  | cons e rest ih =>
    obtain ⟨k1, v1⟩ := e
    by_cases h1 : k1 = k
    · simp [upsert, h1] at h
      rcases h with h | h
      · right; exact h.1
      · left; simp [h]
    · simp [upsert, h1] at h
      rcases h with h | h
      · left; simp [h]
      · rcases ih h with h2 | h2
        · left; simp [h2]
        · right; exact h2

theorem nodup_upsert {α : Type} (k : Bytes) (v : α) (l : List (Bytes × α))
    (h : (l.map Prod.fst).Nodup) : ((upsert k v l).map Prod.fst).Nodup := by
  induction l with
  | nil => simp [upsert]
  | cons e rest ih =>
    obtain ⟨k1, v1⟩ := e
    simp at h
    by_cases h1 : k1 = k
    · subst h1
      simp [upsert]
      exact h
    · simp [upsert, h1]
      refine ⟨fun x hmem => ?_, ih h.2⟩
      rcases mem_upsert k1 k x v rest hmem with h2 | h2
      · exact h.1 x h2
      · exact h1 h2

theorem mem_eraseKey {α : Type} (a k : Bytes) (x : α) (l : List (Bytes × α))
    (h : (a, x) ∈ eraseKey k l) : (a, x) ∈ l := by
  induction l with
  | nil => simp [eraseKey] at h
  | cons e rest ih =>
    obtain ⟨k1, v1⟩ := e
    by_cases h1 : k1 = k
    · simp [eraseKey, h1] at h
      simp [ih h]
    · simp [eraseKey, h1] at h
      rcases h with h | h
      · simp [h]
      · simp [ih h]

theorem nodup_eraseKey {α : Type} (k : Bytes) (l : List (Bytes × α))
    (h : (l.map Prod.fst).Nodup) : ((eraseKey k l).map Prod.fst).Nodup := by
  induction l with
  | nil => simp [eraseKey]
  | cons e rest ih =>
    obtain ⟨k1, v1⟩ := e
    simp at h
    by_cases h1 : k1 = k
    · simp [eraseKey, h1, ih h.2]
    · simp [eraseKey, h1]
      exact ⟨fun x hmem => h.1 x (mem_eraseKey k1 k x rest hmem), ih h.2⟩

theorem nodup_applyMut (idx : KIndex) (m : Mut)
    (h : (idx.map Prod.fst).Nodup) : ((applyMut idx m).map Prod.fst).Nodup := by
  obtain ⟨k, op⟩ := m
  cases op with
  | some v => exact nodup_upsert k v idx h
  | none => exact nodup_eraseKey k idx h

theorem nodup_applyMuts (buf : List Mut) : ∀ idx : KIndex,
    (idx.map Prod.fst).Nodup → ((applyMuts idx buf).map Prod.fst).Nodup := by
  induction buf with
  | nil => intro idx h; simpa [applyMuts] using h
  | cons m rest ih =>
    intro idx h
    have : applyMuts idx (m :: rest) = applyMuts (applyMut idx m) rest := by
      simp [applyMuts]
    rw [this]
    exact ih (applyMut idx m) (nodup_applyMut idx m h)

theorem assocFind_applyMut_ne (idx : KIndex) (m : Mut) (k : Bytes) (h : m.1 ≠ k) :
    assocFind k (applyMut idx m) = assocFind k idx := by
  obtain ⟨k1, op⟩ := m
  cases op with
  | some v => exact assocFind_upsert_ne k k1 v idx h
  | none => exact assocFind_eraseKey_ne k k1 idx h

/-- The committed Index after applying a Buffer with unique keys reads
back exactly as the Buffer demands: a staged Put becomes the stored
value, a staged Remove removes the entry, untouched keys are unchanged. -/
theorem assocFind_applyMuts (buf : List Mut) : ∀ (idx : KIndex) (k : Bytes),
    (buf.map Prod.fst).Nodup →
    assocFind k (applyMuts idx buf) =
      (match assocFind k buf with
       | some (some v) => some v
       | some none => none
       | none => assocFind k idx) := by
  induction buf with
  | nil => intro idx k _; simp [applyMuts, assocFind]
  | cons m rest ih =>
    intro idx k h
    obtain ⟨k1, op⟩ := m
    simp at h
    have hstep : applyMuts idx ((k1, op) :: rest) = applyMuts (applyMut idx (k1, op)) rest := by
      simp [applyMuts]
    rw [hstep, ih (applyMut idx (k1, op)) k h.2]
    cases hrest : assocFind k rest with
    | some op2 =>
      have hk1 : k1 ≠ k := by
        intro he
        subst he
        exact h.1 op2 (assocFind_mem k1 rest op2 hrest)
      simp [assocFind, hk1]
      rw [hrest]
      cases op2 <;> rfl
    | none =>
      by_cases hk1 : k1 = k
      · subst hk1
        simp [assocFind]
        cases op with
        | some v => simp [applyMut, assocFind_upsert_self]
        | none => simp [applyMut, assocFind_eraseKey_self]
      · simp [assocFind, hk1]
        rw [hrest, assocFind_applyMut_ne idx (k1, op) k hk1]

/-! Serialization roundtrip lemmas. -/

theorem take_append_len {α : Type} (l1 l2 : List α) : (l1 ++ l2).take l1.length = l1 := by
  induction l1 with
  | nil => simp
  | cons a rest ih => simp [ih]

theorem drop_append_len {α : Type} (l1 l2 : List α) : (l1 ++ l2).drop l1.length = l2 := by
  induction l1 with
  | nil => simp
  | cons a rest ih => simp [ih]

theorem decodeMut_enc (m : Mut) (rest : List Nat) :
    decodeMut (encMut m ++ rest) = some (m, rest) := by
  obtain ⟨k, op⟩ := m
  cases op with
  | some v =>
    have h1 : encMut (k, some v) ++ rest = 1 :: k.length :: (k ++ (v.length :: (v ++ rest))) := by
      simp [encMut]
    rw [h1]
    simp [decodeMut, take_append_len, drop_append_len]
  | none =>
    have h1 : encMut (k, none) ++ rest = 0 :: k.length :: (k ++ rest) := by
      simp [encMut]
    rw [h1]
    simp [decodeMut, take_append_len, drop_append_len]

theorem decodeMuts_enc (ms : List Mut) : ∀ rest : List Nat,
    decodeMuts ms.length (encMuts ms ++ rest) = some (ms, rest) := by
  induction ms with
  | nil => intro rest; simp [encMuts, decodeMuts]
  | cons m ms ih =>
    intro rest
    have h1 : encMuts (m :: ms) ++ rest = encMut m ++ (encMuts ms ++ rest) := by
      simp [encMuts]
    simp [h1, decodeMuts, decodeMut_enc, ih]

theorem decodePayload_enc (ms : List Mut) : decodePayload (encPayload ms) = some ms := by
  have h1 : encMuts ms = encMuts ms ++ [] := by simp
  simp [encPayload, decodePayload]
  rw [h1, decodeMuts_enc]

theorem mkCommit_cons (o c : Nat) (ms : List Mut) (tail : List Nat) :
    mkCommit o c ms ++ tail =
      (encPayload ms).length ::
        (encPayload ms ++
          (checksum (encPayload ms) :: (o + (encPayload ms).length + 5) :: c ::
            kTrailerMagic :: tail)) := by
  simp [mkCommit]

theorem mkCommit_length (o c : Nat) (ms : List Mut) :
    (mkCommit o c ms).length = (encPayload ms).length + 5 := by
  simp [mkCommit]

/-- A well-formed commit frame written at its own offset and checkpoint
id parses back to exactly its mutation list. -/
theorem parse_mkCommit (o c : Nat) (ms : List Mut) (tail : List Nat) :
    parseCommit (mkCommit o c ms ++ tail) o c = .commit ms (encPayload ms).length := by
  rw [mkCommit_cons]
  simp [parseCommit, take_append_len, drop_append_len, decodePayload_enc]

theorem drop_commit_rest (P : List Nat) (a b c d : Nat) (tail : List Nat) :
    (P ++ (a :: b :: c :: d :: tail)).drop (P.length + 4) = tail := by
  have h1 : P ++ (a :: b :: c :: d :: tail) = (P ++ [a, b, c, d]) ++ tail := by simp
  have h2 : (P ++ [a, b, c, d]).length = P.length + 4 := by simp
  rw [h1, ← h2, drop_append_len]

/-! Replay machinery lemmas. -/

theorem replayGo_nil (f o c p : Nat) (i : KIndex) (n : Nat) :
    replayGo f [] o c p i n = .ok i c p o false := by
  cases f <;> rfl

theorem replayGo_mono (f1 : Nat) : ∀ (f2 : Nat) (rem : List Nat) (o c p : Nat) (i : KIndex)
    (n : Nat), rem.length ≤ f1 → rem.length ≤ f2 →
    replayGo f1 rem o c p i n = replayGo f2 rem o c p i n := by
  induction f1 with
  | zero =>
    intro f2 rem o c p i n h1 h2
    have : rem = [] := by
      cases rem with
      | nil => rfl
      | cons b rest => simp at h1
    subst this
    rw [replayGo_nil, replayGo_nil]
  | succ g ih =>
    intro f2 rem o c p i n h1 h2
    cases rem with
    | nil => rw [replayGo_nil, replayGo_nil]
    | cons b rest =>
      cases f2 with
      | zero => simp at h2
      | succ g2 =>
        simp only [replayGo]
        cases hp : parseCommit (b :: rest) o c with
        | commit ms plen =>
          apply ih
          · have := List.length_drop (plen + 4) rest
            simp at h1
            omega
          · have := List.length_drop (plen + 4) rest
            simp at h2
            omega
        | fault => rfl
        | badDecode => rfl

theorem replayLoop_nil (o c p : Nat) (i : KIndex) (n : Nat) :
    replayLoop [] o c p i n = .ok i c p o false := by
  simp [replayLoop, replayGo_nil]

theorem replayLoop_commit (b : Nat) (rest : List Nat) (o c p : Nat) (i : KIndex) (n : Nat)
    (ms : List Mut) (plen : Nat) (h : parseCommit (b :: rest) o c = .commit ms plen) :
    replayLoop (b :: rest) o c p i n =
      replayLoop (rest.drop (plen + 4)) (o + plen + 5) (o + plen + 5) c (applyMuts i ms)
        (n + 1) := by
  have h1 : replayLoop (b :: rest) o c p i n =
      replayGo rest.length (rest.drop (plen + 4)) (o + plen + 5) (o + plen + 5) c
        (applyMuts i ms) (n + 1) := by
    simp [replayLoop, replayGo, h]
  rw [h1]
  apply replayGo_mono
  · have := List.length_drop (plen + 4) rest
    omega
  · exact Nat.le_refl _

theorem replayLoop_fault (b : Nat) (rest : List Nat) (o c p : Nat) (i : KIndex) (n : Nat)
    (h : parseCommit (b :: rest) o c = .fault) :
    replayLoop (b :: rest) o c p i n = if n = 0 then .fatal else .ok i c p o true := by
  simp [replayLoop, replayGo, h]

theorem replayLoop_badDecode (b : Nat) (rest : List Nat) (o c p : Nat) (i : KIndex) (n : Nat)
    (h : parseCommit (b :: rest) o c = .badDecode) :
    replayLoop (b :: rest) o c p i n = .fatal := by
  simp [replayLoop, replayGo, h]

/-- Replaying a chain of well-formed commits consumes them all, applying
each one to the replay state, and continues on whatever follows. -/
theorem replayLoop_mkCommits (css : List (List Mut)) : ∀ (st : RState) (tail : List Nat)
    (n : Nat),
    replayLoop (mkCommits st.offset st.cp css ++ tail) st.offset st.cp st.pcp st.idx n =
      replayLoop tail (runCommits st css).offset (runCommits st css).cp
        (runCommits st css).pcp (runCommits st css).idx (n + css.length) := by
  induction css with
  | nil =>
    intro st tail n
    simp [mkCommits, runCommits]
  | cons ms rest ih =>
    intro st tail n
    have hsplit : mkCommits st.offset st.cp (ms :: rest) ++ tail =
        mkCommit st.offset st.cp ms ++
          (mkCommits (st.offset + (encPayload ms).length + 5)
            (st.offset + (encPayload ms).length + 5) rest ++ tail) := by
      simp [mkCommits]
    have hp := parse_mkCommit st.offset st.cp ms
      (mkCommits (st.offset + (encPayload ms).length + 5)
        (st.offset + (encPayload ms).length + 5) rest ++ tail)
    rw [mkCommit_cons] at hp
    rw [hsplit, mkCommit_cons]
    rw [replayLoop_commit _ _ _ _ _ _ _ _ _ hp]
    rw [drop_commit_rest]
    have hih := ih (rstep st ms) tail (n + 1)
    simp only [rstep] at hih
    rw [hih]
    have hrun : runCommits st (ms :: rest) = runCommits (rstep st ms) rest := by
      simp [runCommits]
    rw [hrun]
    simp only [rstep]
    have hn : n + 1 + rest.length = n + (ms :: rest).length := by
      simp
      omega
    rw [hn]

theorem runCommits_offset (css : List (List Mut)) : ∀ st : RState,
    (runCommits st css).offset = st.offset + (mkCommits st.offset st.cp css).length := by
  induction css with
  | nil => intro st; simp [runCommits, mkCommits]
  | cons ms rest ih =>
    intro st
    have h1 : runCommits st (ms :: rest) = runCommits (rstep st ms) rest := by
      simp [runCommits]
    rw [h1, ih (rstep st ms)]
    simp [rstep, mkCommits, mkCommit_length]
    omega

theorem runCommits_cp_le_offset (css : List (List Mut)) : ∀ st : RState,
    st.cp ≤ st.offset → (runCommits st css).cp ≤ (runCommits st css).offset := by
  induction css with
  | nil => intro st h; simpa [runCommits] using h
  | cons ms rest ih =>
    intro st h
    have h1 : runCommits st (ms :: rest) = runCommits (rstep st ms) rest := by
      simp [runCommits]
    rw [h1]
    exact ih (rstep st ms) (by simp [rstep])

theorem runCommits_cp_mono (css : List (List Mut)) : ∀ st : RState,
    st.cp ≤ st.offset → st.cp ≤ (runCommits st css).cp := by
  induction css with
  | nil => intro st _; simp [runCommits]
  | cons ms rest ih =>
    intro st h
    have h1 : runCommits st (ms :: rest) = runCommits (rstep st ms) rest := by
      simp [runCommits]
    rw [h1]
    have h2 := ih (rstep st ms) (by simp [rstep])
    have h3 : st.cp ≤ (rstep st ms).cp := by
      simp [rstep]
      omega
    omega

theorem take3_header (X : List Nat) : (kHeader ++ X).take 3 = kHeader := by
  have h : (3 : Nat) = kHeader.length := rfl
  rw [h, take_append_len]

theorem drop3_header (X : List Nat) : (kHeader ++ X).drop 3 = X := by
  have h : (3 : Nat) = kHeader.length := rfl
  rw [h, drop_append_len]

theorem replayLoop_mkFile (css : List (List Mut)) (tail : List Nat) :
    replayLoop (mkCommits 3 0 css ++ tail) 3 0 0 [] 0 =
      replayLoop tail (runCommits initSt css).offset (runCommits initSt css).cp
        (runCommits initSt css).pcp (runCommits initSt css).idx css.length := by
  have h := replayLoop_mkCommits css initSt tail 0
  have e1 : initSt.offset = 3 := rfl
  have e2 : initSt.cp = 0 := rfl
  have e3 : initSt.pcp = 0 := rfl
  have e4 : initSt.idx = ([] : KIndex) := rfl
  rw [e1, e2, e3, e4, Nat.zero_add] at h
  exact h

/-- Opening a well-formed file succeeds cleanly: the whole file is
consumed, the Index is the accumulated effect of the commit chain, the
checkpoint ids are those of the last two commits, and no damage is
flagged. -/
theorem openFile_mkFile (css : List (List Mut)) :
    openFile (mkFile css) =
      .ok { file := mkFile css, index := (runCommits initSt css).idx, buffer := [],
            checkpoint := (runCommits initSt css).cp,
            prevCheckpoint := (runCommits initSt css).pcp, damaged := false } := by
  have hrl := replayLoop_mkFile css []
  rw [List.append_nil, replayLoop_nil] at hrl
  have hoff : (runCommits initSt css).offset = (kHeader ++ mkCommits 3 0 css).length := by
    rw [runCommits_offset css initSt]
    have e1 : initSt.offset = 3 := rfl
    have e2 : initSt.cp = 0 := rfl
    rw [e1, e2]
    simp [kHeader]
    omega
  rw [show mkFile css = kHeader ++ mkCommits 3 0 css from rfl]
  simp [openFile, take3_header, drop3_header, hrl, hoff, List.take_length]

/-! Bounded (snapshot) replay lemmas. -/

theorem replayToGo_nil (f o c p : Nat) (i : KIndex) (t : Nat) :
    replayToGo f [] o c p i t = if c = t then some (i, c, p) else none := by
  cases f <;> rfl

theorem replayToGo_mono (f1 : Nat) : ∀ (f2 : Nat) (rem : List Nat) (o c p : Nat) (i : KIndex)
    (t : Nat), rem.length ≤ f1 → rem.length ≤ f2 →
    replayToGo f1 rem o c p i t = replayToGo f2 rem o c p i t := by
  induction f1 with
  | zero =>
    intro f2 rem o c p i t h1 h2
    have : rem = [] := by
      cases rem with
      | nil => rfl
      | cons b rest => simp at h1
    subst this
    rw [replayToGo_nil, replayToGo_nil]
  | succ g ih =>
    intro f2 rem o c p i t h1 h2
    cases rem with
    | nil => rw [replayToGo_nil, replayToGo_nil]
    | cons b rest =>
      cases f2 with
      | zero => simp at h2
      | succ g2 =>
        simp only [replayToGo]
        by_cases hc : c = t
        · simp [hc]
        · simp only [hc, if_false]
          cases hp : parseCommit (b :: rest) o c with
          | commit ms plen =>
            apply ih
            · have := List.length_drop (plen + 4) rest
              simp at h1
              omega
            · have := List.length_drop (plen + 4) rest
              simp at h2
              omega
          | fault => rfl
          | badDecode => rfl

theorem replayTo_reached (rem : List Nat) (o c p : Nat) (i : KIndex) :
    replayTo rem o c p i c = some (i, c, p) := by
  cases rem <;> simp [replayTo, replayToGo]

theorem replayTo_commit (b : Nat) (rest : List Nat) (o c p : Nat) (i : KIndex) (t : Nat)
    (ms : List Mut) (plen : Nat) (hc : c ≠ t)
    (h : parseCommit (b :: rest) o c = .commit ms plen) :
    replayTo (b :: rest) o c p i t =
      replayTo (rest.drop (plen + 4)) (o + plen + 5) (o + plen + 5) c (applyMuts i ms) t := by
  have h1 : replayTo (b :: rest) o c p i t =
      replayToGo rest.length (rest.drop (plen + 4)) (o + plen + 5) (o + plen + 5) c
        (applyMuts i ms) t := by
    simp [replayTo, replayToGo, hc, h]
  rw [h1]
  apply replayToGo_mono
  · have := List.length_drop (plen + 4) rest
    omega
  · exact Nat.le_refl _

/-- Bounded replay over a well-formed commit chain, targeted at the
checkpoint id the chain ends on, stops exactly there with the state
accumulated so far, regardless of what follows in the file. -/
theorem replayTo_mkCommits (css : List (List Mut)) : ∀ (st : RState) (tail : List Nat),
    css ≠ [] → st.cp ≤ st.offset →
    replayTo (mkCommits st.offset st.cp css ++ tail) st.offset st.cp st.pcp st.idx
      (runCommits st css).cp =
      some ((runCommits st css).idx, (runCommits st css).cp, (runCommits st css).pcp) := by
  induction css with
  | nil => intro st tail h _; exact absurd rfl h
  | cons ms rest ih =>
    intro st tail _ hle
    have hrun : runCommits st (ms :: rest) = runCommits (rstep st ms) rest := by
      simp [runCommits]
    have hne2 : st.cp ≠ (runCommits st (ms :: rest)).cp := by
      rw [hrun]
      have h2 := runCommits_cp_mono rest (rstep st ms) (by simp [rstep])
      have h3 : st.offset < (rstep st ms).cp := by
        simp [rstep]
        omega
      omega
    have hsplit : mkCommits st.offset st.cp (ms :: rest) ++ tail =
        mkCommit st.offset st.cp ms ++
          (mkCommits (st.offset + (encPayload ms).length + 5)
            (st.offset + (encPayload ms).length + 5) rest ++ tail) := by
      simp [mkCommits]
    have hp := parse_mkCommit st.offset st.cp ms
      (mkCommits (st.offset + (encPayload ms).length + 5)
        (st.offset + (encPayload ms).length + 5) rest ++ tail)
    rw [mkCommit_cons] at hp
    rw [hsplit, mkCommit_cons]
    rw [replayTo_commit _ _ _ _ _ _ _ _ _ hne2 hp]
    rw [drop_commit_rest]
    by_cases hrest : rest = []
    · subst hrest
      rw [hrun]
      have e1 : runCommits (rstep st ms) [] = rstep st ms := by simp [runCommits]
      rw [e1]
      simp only [mkCommits, List.nil_append]
      exact replayTo_reached tail ((rstep st ms).offset) ((rstep st ms).cp)
        ((rstep st ms).pcp) ((rstep st ms).idx) |>.trans (by simp [rstep])
    · have hih := ih (rstep st ms) tail hrest (by simp [rstep])
      simp only [rstep] at hih
      rw [hrun]
      simp only [rstep]
      exact hih

/-- Splitting a commit chain: the bytes of a concatenated chain are the
bytes of the first part followed by the bytes of the second part written
at the offset and checkpoint id the first part ends on. -/
theorem mkCommits_append (a b : List (List Mut)) : ∀ st : RState,
    mkCommits st.offset st.cp (a ++ b) =
      mkCommits st.offset st.cp a ++
        mkCommits (runCommits st a).offset (runCommits st a).cp b := by
  induction a with
  | nil =>
    intro st
    have h1 : runCommits st [] = st := by simp [runCommits]
    simp [mkCommits, h1]
  | cons ms rest ih =>
    intro st
    have h1 : runCommits st (ms :: rest) = runCommits (rstep st ms) rest := by
      simp [runCommits]
    have h2 : (ms :: rest) ++ b = ms :: (rest ++ b) := rfl
    rw [h2]
    simp only [mkCommits]
    rw [h1]
    have hih := ih (rstep st ms)
    simp only [rstep] at hih
    rw [hih]
    simp only [rstep, List.append_assoc]

/-! Transaction Buffer construction lemmas. -/

theorem upsert_ne_nil {α : Type} (k : Bytes) (v : α) (l : List (Bytes × α)) :
    upsert k v l ≠ [] := by
  cases l with
  | nil => simp [upsert]
  | cons e rest =>
    obtain ⟨k1, v1⟩ := e
    by_cases h : k1 = k <;> simp [upsert, h]

theorem foldl_upsert_ne_nil (ops : List Mut) : ∀ init : List Mut, init ≠ [] →
    ops.foldl (fun b m => upsert m.1 m.2 b) init ≠ [] := by
  induction ops with
  | nil => intro init h; simpa using h
  | cons m rest ih =>
    intro init _
    simp only [List.foldl_cons]
    exact ih (upsert m.1 m.2 init) (upsert_ne_nil m.1 m.2 init)

theorem nodup_foldl_upsert (ops : List Mut) : ∀ init : List Mut,
    (init.map Prod.fst).Nodup →
    ((ops.foldl (fun b m => upsert m.1 m.2 b) init).map Prod.fst).Nodup := by
  induction ops with
  | nil => intro init h; simpa using h
  | cons m rest ih =>
    intro init h
    simp only [List.foldl_cons]
    exact ih (upsert m.1 m.2 init) (nodup_upsert m.1 m.2 init h)

/-- The Buffer built by a sequence of staged operations answers lookups
with the last operation staged for the key. -/
theorem assocFind_foldl_upsert (ops : List Mut) : ∀ (init : List Mut) (k : Bytes),
    assocFind k (ops.foldl (fun b m => upsert m.1 m.2 b) init) =
      (match assocFind k ops.reverse with
       | some op => some op
       | none => assocFind k init) := by
  induction ops using List.reverseRecOn with
  | nil => intro init k; simp [assocFind]
  | append_singleton xs m ihx =>
    intro init k
    rw [List.foldl_append]
    simp only [List.foldl_cons, List.foldl_nil]
    obtain ⟨k1, op⟩ := m
    by_cases h : k1 = k
    · subst h
      rw [assocFind_upsert_self]
      simp [assocFind]
    · rw [assocFind_upsert_ne k k1 op _ h, ihx init k]
      simp [assocFind, h]

/-- Running put/remove operations on a fresh store only fills the
Transaction Buffer. -/
theorem runOps_eq (ops : List Mut) :
    runOps ops = { newStore with buffer := ops.foldl (fun b m => upsert m.1 m.2 b) [] } := by
  have general : ∀ (l : List Mut) (s : Store),
      (l.foldl (fun s m =>
        match m.2 with
        | some v => put s m.1 v
        | none => removeKey s m.1) s) =
        { s with buffer := l.foldl (fun b m => upsert m.1 m.2 b) s.buffer } := by
    intro l
    induction l with
    | nil => intro s; rfl
    | cons m rest ih =>
      intro s
      obtain ⟨k, op⟩ := m
      cases op with
      | some v =>
        simp only [List.foldl_cons]
        rw [ih]
        rfl
      | none =>
        simp only [List.foldl_cons]
        rw [ih]
        rfl
  exact general ops newStore

/-! Unfolding helpers for openFile and openAt. -/

theorem openFile_header_ok (X : List Nat) (idx : KIndex) (cp pcp offset : Nat) (dmg : Bool)
    (h : replayLoop X 3 0 0 [] 0 = .ok idx cp pcp offset dmg) :
    openFile (kHeader ++ X) =
      .ok { file := (kHeader ++ X).take offset, index := idx, buffer := [],
            checkpoint := cp, prevCheckpoint := pcp, damaged := dmg } := by
  simp [openFile, take3_header, drop3_header, h]

theorem openFile_header_fatal (X : List Nat) (h : replayLoop X 3 0 0 [] 0 = .fatal) :
    openFile (kHeader ++ X) = .error () := by
  simp [openFile, take3_header, drop3_header, h]

theorem openAt_header_some (s : Store) (X : List Nat) (t : Nat) (idx : KIndex) (cp pcp : Nat)
    (hfile : s.file = kHeader ++ X) (h : replayTo X 3 0 0 [] t = some (idx, cp, pcp)) :
    openAt s t =
      .ok { file := s.file, index := idx, buffer := [], checkpoint := cp,
            prevCheckpoint := pcp, damaged := false } := by
  simp [openAt, hfile, take3_header, drop3_header, h]

/-- A commit frame whose trailing magic byte has been replaced by a
different value is a fault boundary, whatever the offset and checkpoint
id. -/
theorem parse_corrupt_trailer (o c plen2 : Nat) (P : List Nat) (ck tid pid bb : Nat)
    (hbb : bb ≠ kTrailerMagic) (hP : P.length = plen2) :
    parseCommit (plen2 :: (P ++ [ck, tid, pid, bb])) o c = .fault := by
  subst hP
  simp [parseCommit, take_append_len, drop_append_len, hbb]

theorem assocFind_map_some (L : KIndex) (k : Bytes) :
    assocFind k (L.map (fun e => (e.1, some e.2))) = (assocFind k L).map Option.some := by
  induction L with
  | nil => simp [assocFind]
  | cons e rest ih =>
    obtain ⟨k1, v1⟩ := e
    by_cases h : k1 = k
    · simp [assocFind, h]
    · simp [assocFind, h, ih]

/-- With a duplicate-free Buffer, reading through the Buffer-then-Index
chain agrees with reading the Index that results from applying the
Buffer. -/
theorem store_get_eq (s : Store) (k : Bytes) (hbuf : (s.buffer.map Prod.fst).Nodup) :
    Store.get s k = assocFind k (applyMuts s.index s.buffer) := by
  rw [assocFind_applyMuts s.buffer s.index k hbuf]
  cases h1 : assocFind k s.buffer with
  | none => simp [Store.get, h1]
  | some op =>
    cases op with
    | none => simp [Store.get, h1]
    | some v => simp [Store.get, h1]

theorem take3_cons (a : Nat) (l : List Nat) : (a :: l).take 3 = a :: l.take 2 := rfl

theorem drop1_cons (a : Nat) (l : List Nat) : (a :: l).drop 1 = l := rfl

/-! Claim theorems. -/

/-- Claim C9: put is an upsert: staging a Put overwrites any prior staged
or committed value for that key, and a subsequent get returns the newly
put value, whether or not the key was already present. -/
theorem claim_C9 (s : Store) (k v : Bytes) : Store.get (put s k v) k = some v := by
  simp [Store.get, put, assocFind_upsert_self]

/-- Claim C6: checkpoint strictly increases across every commitChanges
with a non-empty Transaction Buffer; commitChanges with an empty Buffer
is a no-op returning the unchanged checkpoint id; after a non-empty
commit, previousCheckpoint equals the checkpoint id current immediately
before the commit. -/
theorem claim_C6 (s : Store) (h : s.checkpoint ≤ s.file.length) :
    (s.buffer = [] → commitChanges s = (s, s.checkpoint)) ∧
    (s.buffer ≠ [] →
      s.checkpoint < (commitChanges s).2 ∧
      (commitChanges s).1.checkpoint = (commitChanges s).2 ∧
      (commitChanges s).1.prevCheckpoint = s.checkpoint) := by
  constructor
  · intro hb
    simp [commitChanges, hb]
  · intro hb
    rw [commitChanges, if_neg hb]
    exact ⟨by omega, rfl, rfl⟩

/-- Witness for claim C6 at a store with one staged Put. -/
theorem claim_C6_witness :
    (put newStore [1] [2]).checkpoint ≤ (put newStore [1] [2]).file.length ∧
    (((put newStore [1] [2]).buffer = [] →
        commitChanges (put newStore [1] [2]) =
          (put newStore [1] [2], (put newStore [1] [2]).checkpoint)) ∧
      ((put newStore [1] [2]).buffer ≠ [] →
        (put newStore [1] [2]).checkpoint < (commitChanges (put newStore [1] [2])).2 ∧
        (commitChanges (put newStore [1] [2])).1.checkpoint =
          (commitChanges (put newStore [1] [2])).2 ∧
        (commitChanges (put newStore [1] [2])).1.prevCheckpoint =
          (put newStore [1] [2]).checkpoint)) :=
  ⟨by decide, claim_C6 (put newStore [1] [2]) (by decide)⟩

/-- Claim C10: on input that is valid JSON so far but truncated with at
least one container still open and no earlier parse error, encodeJSON
returns false, errorMessage reports Truncated JSON, and the recorded
error position equals the input length. -/
theorem claim_C10 (input : List Nat)
    (h1 : (jsonslFeed input).err = none)
    (h2 : 0 < (jsonslFeed input).stack.length) :
    (encodeJSON input).2 = false ∧
    errorMessage (encodeJSON input).1 = "Truncated JSON" ∧
    (encodeJSON input).1.errorPos = input.length := by
  simp [encodeJSON, h1, h2, errorMessage, kErrTruncatedJSON, kErrExceptionThrown,
    kJsonslSuccess]

/-- Witness for claim C10 at the truncated input consisting of a single
opening bracket. -/
theorem claim_C10_witness :
    (jsonslFeed [91]).err = none ∧ 0 < (jsonslFeed [91]).stack.length ∧
    ((encodeJSON [91]).2 = false ∧
      errorMessage (encodeJSON [91]).1 = "Truncated JSON" ∧
      (encodeJSON [91]).1.errorPos = [91].length) :=
  ⟨by decide, by decide, claim_C10 [91] (by decide) (by decide)⟩

/-- Claim C3: corrupting the first byte of any file that opens
successfully makes reopening fail fatally, producing no Store, however
many valid commits follow the header. -/
theorem claim_C3 (file : List Nat) (s : Store) (b : Nat)
    (hs : openFile file = .ok s) (hb : b ≠ 70) :
    openFile (b :: file.drop 1) = .error () := by
  have hhead : file.take 3 = kHeader := by
    by_contra hne
    simp [openFile, hne] at hs
  cases file with
  | nil => simp [kHeader] at hhead
  | cons f0 rest =>
    rw [take3_cons] at hhead
    rw [drop1_cons]
    have h2 : rest.take 2 = [76, 1] := by
      have := hhead
      simp [kHeader] at this
      exact this.2
    simp [openFile, take3_cons, h2, kHeader, hb]

/-- Witness for claim C3: corrupting the header byte of a concrete
one-commit file. -/
theorem claim_C3_witness :
    openFile ((255 : Nat) :: (mkFile [[([1], some [2])]]).drop 1) = .error () :=
  claim_C3 (mkFile [[([1], some [2])]]) _ 255 (openFile_mkFile [[([1], some [2])]])
    (by decide)

/-- Replacing the final byte of a file ending in a commit frame replaces
exactly the trailer magic byte of that frame. -/
theorem corrupt_last_commit (F : List Nat) (o c : Nat) (ms : List Mut) (b : Nat) :
    (F ++ mkCommit o c ms).dropLast ++ [b] =
      F ++ ((encPayload ms).length ::
        (encPayload ms ++
          [checksum (encPayload ms), o + (encPayload ms).length + 5, c, b])) := by
  have h1 : F ++ mkCommit o c ms =
      (F ++ ((encPayload ms).length ::
        (encPayload ms ++
          [checksum (encPayload ms), o + (encPayload ms).length + 5, c]))) ++
        [kTrailerMagic] := by
    simp [mkCommit]
  rw [h1, List.dropLast_concat]
  simp

theorem mkCommits_append_init (a b : List (List Mut)) :
    mkCommits 3 0 (a ++ b) =
      mkCommits 3 0 a ++
        mkCommits (runCommits initSt a).offset (runCommits initSt a).cp b := by
  have h := mkCommits_append a b initSt
  have e1 : initSt.offset = 3 := rfl
  have e2 : initSt.cp = 0 := rfl
  rw [e1, e2] at h
  exact h

theorem runCommits_concat (st : RState) (a : List (List Mut)) (x : List Mut) :
    runCommits st (a ++ [x]) = rstep (runCommits st a) x := by
  simp [runCommits, List.foldl_append]

/-- Claim C4: corrupting the final byte of a single-commit file makes
reopening fail fatally: replay applies zero valid commits, so open
produces no Store. -/
theorem claim_C4 (c : List Mut) (b : Nat) (hb : b ≠ kTrailerMagic) :
    openFile ((mkFile [c]).dropLast ++ [b]) = .error () := by
  have h1 : mkFile [c] = kHeader ++ mkCommit 3 0 c := by
    simp [mkFile, mkCommits]
  rw [h1, corrupt_last_commit kHeader 3 0 c b]
  apply openFile_header_fatal
  rw [replayLoop_fault _ _ _ _ _ _ _ (parse_corrupt_trailer _ _ _ _ _ _ _ b hb rfl)]
  simp

/-- Witness for claim C4: corrupting the final byte of a concrete
one-commit file. -/
theorem claim_C4_witness :
    openFile ((mkFile [[([1], some [2])]]).dropLast ++ [0]) = .error () :=
  claim_C4 [([1], some [2])] 0 (by decide)

/-- Claim C2: for a file holding at least two valid commits, corrupting
only the final byte makes reopening succeed, damaged, at the checkpoint
of the last still-valid commit, with none of the mutations of the last commit
visible through get or getMutable. -/
theorem claim_C2 (css : List (List Mut)) (clast : List Mut) (b : Nat)
    (hcss : css ≠ []) (hb : b ≠ kTrailerMagic) :
    ∃ s0 s1 : Store,
      openFile (mkFile css) = .ok s0 ∧
      openFile ((mkFile (css ++ [clast])).dropLast ++ [b]) = .ok s1 ∧
      s1.damaged = true ∧ s1.checkpoint = s0.checkpoint ∧ s1.index = s0.index ∧
      (∀ k, Store.get s1 k = Store.get s0 k) ∧
      (∀ k, getMutable s1 k = getMutable s0 k) := by
  have hlen : ¬(css.length = 0) := fun h => hcss (List.length_eq_zero.mp h)
  have hfile : mkFile (css ++ [clast]) =
      (kHeader ++ mkCommits 3 0 css) ++
        mkCommit (runCommits initSt css).offset (runCommits initSt css).cp clast := by
    rw [mkFile, mkCommits_append_init css [clast]]
    simp [mkCommits]
  have hopen1 : openFile ((mkFile (css ++ [clast])).dropLast ++ [b]) =
      .ok { file := ((kHeader ++
              (mkCommits 3 0 css ++
                ((encPayload clast).length ::
                  (encPayload clast ++
                    [checksum (encPayload clast),
                     (runCommits initSt css).offset + (encPayload clast).length + 5,
                     (runCommits initSt css).cp, b])))).take (runCommits initSt css).offset),
            index := (runCommits initSt css).idx, buffer := [],
            checkpoint := (runCommits initSt css).cp,
            prevCheckpoint := (runCommits initSt css).pcp, damaged := true } := by
    rw [hfile,
      corrupt_last_commit (kHeader ++ mkCommits 3 0 css)
        (runCommits initSt css).offset (runCommits initSt css).cp clast b,
      List.append_assoc]
    apply openFile_header_ok
    rw [replayLoop_mkFile]
    rw [replayLoop_fault _ _ _ _ _ _ _
      (parse_corrupt_trailer (runCommits initSt css).offset (runCommits initSt css).cp
        _ _ _ _ _ b hb rfl)]
    rw [if_neg hlen]
  refine ⟨_, _, openFile_mkFile css, hopen1, rfl, rfl, rfl, ?_, ?_⟩
  · intro k
    simp [Store.get, assocFind]
  · intro k
    simp [getMutable, Store.get, assocFind]

/-- Witness for claim C2: corrupting the final byte of a concrete
two-commit file. -/
theorem claim_C2_witness :
    ∃ s0 s1 : Store,
      openFile (mkFile [[([1], some [2])]]) = .ok s0 ∧
      openFile ((mkFile ([[([1], some [2])]] ++ [[([1], some [9])]])).dropLast ++ [0]) =
        .ok s1 ∧
      s1.damaged = true ∧ s1.checkpoint = s0.checkpoint ∧ s1.index = s0.index ∧
      (∀ k, Store.get s1 k = Store.get s0 k) ∧
      (∀ k, getMutable s1 k = getMutable s0 k) :=
  claim_C2 [[([1], some [2])]] [([1], some [9])] 0 (by decide) (by decide)

/-- Claim C5 (amended): for a store file with at least one commit,
appending extra bytes that do not themselves parse as a valid next
commit frame makes reopening succeed with the damage flag set, the
checkpoint unchanged and all previously committed data intact. -/
theorem claim_C5 (css : List (List Mut)) (g : List Nat) (hcss : css ≠ []) (hg : g ≠ [])
    (hfault :
      parseCommit g (runCommits initSt css).offset (runCommits initSt css).cp = .fault) :
    ∃ s0 s1 : Store,
      openFile (mkFile css) = .ok s0 ∧
      openFile (mkFile css ++ g) = .ok s1 ∧
      s1.damaged = true ∧ s1.checkpoint = s0.checkpoint ∧ s1.index = s0.index ∧
      (∀ k, Store.get s1 k = Store.get s0 k) := by
  have hlen : ¬(css.length = 0) := fun h => hcss (List.length_eq_zero.mp h)
  cases g with
  | nil => exact absurd rfl hg
  | cons gb grest =>
    have hfl : mkFile css ++ (gb :: grest) =
        kHeader ++ (mkCommits 3 0 css ++ (gb :: grest)) := by
      simp [mkFile]
    have hopen1 : openFile (mkFile css ++ (gb :: grest)) =
        .ok { file := ((kHeader ++ (mkCommits 3 0 css ++ (gb :: grest))).take
                (runCommits initSt css).offset),
              index := (runCommits initSt css).idx, buffer := [],
              checkpoint := (runCommits initSt css).cp,
              prevCheckpoint := (runCommits initSt css).pcp, damaged := true } := by
      rw [hfl]
      apply openFile_header_ok
      rw [replayLoop_mkFile]
      rw [replayLoop_fault _ _ _ _ _ _ _ hfault]
      rw [if_neg hlen]
    refine ⟨_, _, openFile_mkFile css, hopen1, rfl, rfl, rfl, ?_⟩
    intro k
    simp [Store.get, assocFind]

/-- Witness for claim C5 at a one-commit file with a short garbage
tail. -/
theorem claim_C5_witness :
    ∃ s0 s1 : Store,
      openFile (mkFile [[([1], some [2])]]) = .ok s0 ∧
      openFile (mkFile [[([1], some [2])]] ++ [7]) = .ok s1 ∧
      s1.damaged = true ∧ s1.checkpoint = s0.checkpoint ∧ s1.index = s0.index ∧
      (∀ k, Store.get s1 k = Store.get s0 k) :=
  claim_C5 [[([1], some [2])]] [7] (by decide) (by decide) (by decide)

/-- Counterexample to claim C5 as stated: appending bytes that happen to
form a valid next commit frame reopens undamaged and with an advanced
checkpoint, so appended bytes are not arbitrary. -/
theorem claim_C5_counterexample :
    ((openFile (mkFile [[([1], some [2])]] ++
        mkCommit 14 14 [([3], some [4])])).toOption.map Store.damaged = some false) ∧
    ((openFile (mkFile [[([1], some [2])]] ++
        mkCommit 14 14 [([3], some [4])])).toOption.map Store.checkpoint ≠ some 14) := by
  decide

/-- commitChanges on a fresh store with a non-empty Buffer produces
exactly a one-commit file. -/
theorem commit_fresh (B : List Mut) (hB : B ≠ []) :
    commitChanges { newStore with buffer := B } =
      ({ file := mkFile [B], index := applyMuts [] B, buffer := [],
         checkpoint := (runCommits initSt [B]).cp, prevCheckpoint := 0,
         damaged := false },
       (runCommits initSt [B]).cp) := by
  rw [commitChanges, if_neg hB]
  simp [newStore, mkFile, mkCommits, kHeader, runCommits, rstep, initSt, mkCommit]

/-- Claim C1: for every sequence of put/remove operations followed by
commitChanges, reopening the file yields a Store at the returned
checkpoint id in which every key whose last operation was a Put holds
the last value put, and get returns none for every key whose last
operation was a Remove. -/
theorem claim_C1 (ops : List Mut) (k : Bytes) :
    ∃ t : Store,
      openFile (commitChanges (runOps ops)).1.file = .ok t ∧
      t.checkpoint = (commitChanges (runOps ops)).2 ∧
      (∀ v, lastOp ops k = some (some v) → Store.get t k = some v) ∧
      (lastOp ops k = some none → Store.get t k = none) := by
  by_cases hb : ops.foldl (fun b m => upsert m.1 m.2 b) ([] : List Mut) = []
  · have hops : ops = [] := by
      cases ops with
      | nil => rfl
      | cons m rest =>
        exfalso
        apply foldl_upsert_ne_nil rest (upsert m.1 m.2 []) (upsert_ne_nil m.1 m.2 [])
        simpa using hb
    subst hops
    refine ⟨{ file := kHeader, index := [], buffer := [], checkpoint := 0,
              prevCheckpoint := 0, damaged := false }, ?_, ?_, ?_, ?_⟩
    · rfl
    · rfl
    · intro v hv
      simp [lastOp, assocFind] at hv
    · intro hv
      simp [lastOp, assocFind] at hv
  · have hrun2 : runOps ops =
        { newStore with buffer := ops.foldl (fun b m => upsert m.1 m.2 b) [] } :=
      runOps_eq ops
    rw [hrun2, commit_fresh (ops.foldl (fun b m => upsert m.1 m.2 b) []) hb]
    dsimp only
    have hnodup : ((ops.foldl (fun b m => upsert m.1 m.2 b) []).map Prod.fst).Nodup :=
      nodup_foldl_upsert ops [] (by simp)
    have hidx : (runCommits initSt [ops.foldl (fun b m => upsert m.1 m.2 b) []]).idx =
        applyMuts [] (ops.foldl (fun b m => upsert m.1 m.2 b) []) := by
      simp [runCommits, rstep, initSt]
    refine ⟨_, openFile_mkFile [ops.foldl (fun b m => upsert m.1 m.2 b) []], rfl, ?_, ?_⟩
    · intro v hv
      have hfind : assocFind k (ops.foldl (fun b m => upsert m.1 m.2 b) []) =
          some (some v) := by
        rw [assocFind_foldl_upsert ops [] k]
        rw [show assocFind k ops.reverse = lastOp ops k from rfl, hv]
      simp only [Store.get, hidx]
      rw [assocFind_applyMuts _ _ _ hnodup, hfind]
      simp [assocFind]
    · intro hv
      have hfind : assocFind k (ops.foldl (fun b m => upsert m.1 m.2 b) []) =
          some none := by
        rw [assocFind_foldl_upsert ops [] k]
        rw [show assocFind k ops.reverse = lastOp ops k from rfl, hv]
      simp only [Store.get, hidx]
      rw [assocFind_applyMuts _ _ _ hnodup, hfind]
      simp [assocFind]

/-- Witness for claim C1 at a concrete operation sequence with a put, an
overwritten key and a removed key. -/
theorem claim_C1_witness :
    lastOp [([1], some [2]), ([3], some [4]), ([3], none)] [1] = some (some [2]) ∧
    ∃ t : Store,
      openFile
          (commitChanges (runOps [([1], some [2]), ([3], some [4]), ([3], none)])).1.file =
        .ok t ∧
      Store.get t [1] = some [2] := by
  refine ⟨by decide, ?_⟩
  obtain ⟨t, h1, _, h3, _⟩ := claim_C1 [([1], some [2]), ([3], some [4]), ([3], none)] [1]
  exact ⟨t, h1, h3 [2] (by decide)⟩

theorem keys_map_putify (L : KIndex) :
    (L.map (fun e => (e.1, some e.2))).map Prod.fst = L.map Prod.fst := by
  induction L with
  | nil => simp
  | cons e rest ih => simp [ih]

theorem get_record (f : List Nat) (idx : KIndex) (cp pcp : Nat) (d : Bool) (k : Bytes) :
    Store.get { file := f, index := idx, buffer := [], checkpoint := cp,
                prevCheckpoint := pcp, damaged := d } k = assocFind k idx := by
  simp [Store.get, assocFind]

/-- Claim C8: writeTo produces a file that opens to exactly the same
live key/value set as the source Store, with previousCheckpoint zero;
writeTo is a pure function of the source Store, which it leaves
untouched. -/
theorem claim_C8 (s : Store)
    (hidx : (s.index.map Prod.fst).Nodup) (hbuf : (s.buffer.map Prod.fst).Nodup) :
    ∃ t : Store, openFile (writeTo s) = .ok t ∧
      (∀ k, Store.get t k = Store.get s k) ∧ t.prevCheckpoint = 0 := by
  have hL : ((applyMuts s.index s.buffer).map Prod.fst).Nodup :=
    nodup_applyMuts s.buffer s.index hidx
  have hnodup2 : ((liveMuts s).map Prod.fst).Nodup := by
    rw [liveMuts, keys_map_putify]
    exact hL
  have hidx1 : (runCommits initSt [liveMuts s]).idx = applyMuts [] (liveMuts s) := by
    simp [runCommits, rstep, initSt]
  refine ⟨_, openFile_mkFile [liveMuts s], ?_, ?_⟩
  · intro k
    rw [get_record, hidx1, assocFind_applyMuts _ _ _ hnodup2, store_get_eq s k hbuf]
    rw [show assocFind k (liveMuts s) =
        (assocFind k (applyMuts s.index s.buffer)).map Option.some from
      assocFind_map_some (applyMuts s.index s.buffer) k]
    cases hX : assocFind k (applyMuts s.index s.buffer) with
    | none => simp [assocFind]
    | some v => simp
  · show (runCommits initSt [liveMuts s]).pcp = 0
    simp [runCommits, rstep, initSt]

/-- Witness for claim C8 at a concrete store with one committed and one
staged pair. -/
theorem claim_C8_witness :
    ∃ t : Store,
      openFile (writeTo { file := [], index := [([1], [2])],
                          buffer := [([3], some [4])], checkpoint := 0,
                          prevCheckpoint := 0, damaged := false }) = .ok t ∧
      (∀ k, Store.get t k =
        Store.get { file := [], index := [([1], [2])],
                    buffer := [([3], some [4])], checkpoint := 0,
                    prevCheckpoint := 0, damaged := false } k) ∧
      t.prevCheckpoint = 0 :=
  claim_C8 _ (by decide) (by decide)

theorem replayTo_mkFile (css : List (List Mut)) (tail : List Nat) (h : css ≠ []) :
    replayTo (mkCommits 3 0 css ++ tail) 3 0 0 []
        (runCommits initSt css).cp =
      some ((runCommits initSt css).idx, (runCommits initSt css).cp,
        (runCommits initSt css).pcp) := by
  have h2 := replayTo_mkCommits css initSt tail h (by simp [initSt])
  have e1 : initSt.offset = 3 := rfl
  have e2 : initSt.cp = 0 := rfl
  have e3 : initSt.pcp = 0 := rfl
  have e4 : initSt.idx = ([] : KIndex) := rfl
  rw [e1, e2, e3, e4] at h2
  exact h2

/-- Claim C7: for a store with at least two commits, the snapshot opened
at previousCheckpoint reproduces exactly the key/value set as of the
next-to-last commit, its checkpoint is that prior id, and its own
previousCheckpoint is zero when that commit was the first in the file. -/
theorem claim_C7 (css1 : List (List Mut)) (clast : List Mut) (h1 : css1 ≠ []) :
    ∃ s s1 snap : Store,
      openFile (mkFile (css1 ++ [clast])) = .ok s ∧
      openFile (mkFile css1) = .ok s1 ∧
      s.prevCheckpoint = s1.checkpoint ∧
      openAt s s.prevCheckpoint = .ok snap ∧
      snap.index = s1.index ∧ snap.checkpoint = s1.checkpoint ∧
      snap.prevCheckpoint = s1.prevCheckpoint ∧
      (∀ k, Store.get snap k = Store.get s1 k) ∧
      ((∃ c, css1 = [c]) → snap.prevCheckpoint = 0) := by
  have hpcp : (runCommits initSt (css1 ++ [clast])).pcp = (runCommits initSt css1).cp := by
    rw [runCommits_concat]
    simp [rstep]
  have hfileS : mkFile (css1 ++ [clast]) =
      kHeader ++ (mkCommits 3 0 css1 ++
        mkCommits (runCommits initSt css1).offset (runCommits initSt css1).cp [clast]) := by
    rw [mkFile, mkCommits_append_init]
  have hopenAt : openAt
      { file := mkFile (css1 ++ [clast]),
        index := (runCommits initSt (css1 ++ [clast])).idx, buffer := [],
        checkpoint := (runCommits initSt (css1 ++ [clast])).cp,
        prevCheckpoint := (runCommits initSt (css1 ++ [clast])).pcp, damaged := false }
      (runCommits initSt css1).cp =
      .ok { file := mkFile (css1 ++ [clast]), index := (runCommits initSt css1).idx,
            buffer := [], checkpoint := (runCommits initSt css1).cp,
            prevCheckpoint := (runCommits initSt css1).pcp, damaged := false } :=
    openAt_header_some _ _ _ _ _ _ hfileS (replayTo_mkFile css1 _ h1)
  refine ⟨{ file := mkFile (css1 ++ [clast]),
            index := (runCommits initSt (css1 ++ [clast])).idx, buffer := [],
            checkpoint := (runCommits initSt (css1 ++ [clast])).cp,
            prevCheckpoint := (runCommits initSt (css1 ++ [clast])).pcp,
            damaged := false },
          { file := mkFile css1, index := (runCommits initSt css1).idx, buffer := [],
            checkpoint := (runCommits initSt css1).cp,
            prevCheckpoint := (runCommits initSt css1).pcp, damaged := false },
          { file := mkFile (css1 ++ [clast]), index := (runCommits initSt css1).idx,
            buffer := [], checkpoint := (runCommits initSt css1).cp,
            prevCheckpoint := (runCommits initSt css1).pcp, damaged := false },
          openFile_mkFile (css1 ++ [clast]), openFile_mkFile css1, hpcp, ?_,
          rfl, rfl, rfl, ?_, ?_⟩
  · show openAt _ ((runCommits initSt (css1 ++ [clast])).pcp) = _
    rw [hpcp]
    exact hopenAt
  · intro k
    simp [Store.get, assocFind]
  · rintro ⟨c, hc⟩
    subst hc
    show (runCommits initSt [c]).pcp = 0
    simp [runCommits, rstep, initSt]

/-- Witness for claim C7 at a concrete two-commit file. -/
theorem claim_C7_witness :
    ∃ s s1 snap : Store,
      openFile (mkFile ([[([1], some [2])]] ++ [[([1], none)]])) = .ok s ∧
      openFile (mkFile [[([1], some [2])]]) = .ok s1 ∧
      s.prevCheckpoint = s1.checkpoint ∧
      openAt s s.prevCheckpoint = .ok snap ∧
      snap.index = s1.index ∧ snap.checkpoint = s1.checkpoint ∧
      snap.prevCheckpoint = s1.prevCheckpoint ∧
      (∀ k, Store.get snap k = Store.get s1 k) ∧
      ((∃ c, [[([1], some [2])]] = [c]) → snap.prevCheckpoint = 0) :=
  claim_C7 [[([1], some [2])]] [([1], none)] (by decide)
